import Mathlib

/-!
Verification of the darch image-building core.

The Go sources embedded here:
* `images/images.go` — image definitions, dependency validation
  (`verifyDependencies`, `BuildAllDefinitions`), the docker-CLI build
  (`BuildImageLayer`, `destroyContainer`) and extraction (`ExtractImage`).
* the containerd-based `ExtractImage` (repository package) — snapshot key
  generation and the upper-layer copy walk.

Pure data and control flow are translated directly; interactions with the
operating system (docker invocations, the filesystem) are modelled as
explicit state threaded through the functions, with an oracle deciding
which external command succeeds.
-/

namespace Darch

/-- `ImageDefinition` from images.go (lines 16-22). -/
structure ImageDefinition where
  Name : String
  ImageDir : String
  ImagesDir : String
  Inherits : String
deriving Repr, DecidableEq

/-- The two error shapes produced by `verifyDependencies`
(images.go lines 72 and 82). -/
inductive DepError where
  | cyclic (image : String)
  | unresolved (image : String) (parent : String)
deriving Repr, DecidableEq

/-- Association-list rendering of Go's `map[string]ImageDefinition`. -/
def lookupDef : List (String × ImageDefinition) → String → Option ImageDefinition
  | [], _ => none
  | (k, d) :: rest, q => if k = q then some d else lookupDef rest q

/-- Go's `strings.HasPrefix`, expressed on the character sequences of the
two strings (byte and character prefixes agree on valid UTF-8). -/
def hasPrefixStr (s pre : String) : Bool := pre.data.isPrefixOf s.data

/-- `verifyDependencies` from images.go lines 60-83, with an explicit fuel
counter: the Go recursion is not structurally terminating for arbitrary
maps (it is bounded only because map keys equal definition names), so the
embedding returns `none` when the fuel is exhausted.  `some none` is Go's
`nil` error (success); `some (some e)` is an error return. -/
def verifyDependenciesF (fuel : Nat) (d : ImageDefinition)
    (defs : List (String × ImageDefinition)) (stack : List String) :
    Option (Option DepError) :=
  match fuel with
  | 0 => none
  | f + 1 =>
    if hasPrefixStr d.Inherits "external:" then
      some none
    else if d.Inherits ∈ stack then
      some (some (DepError.cyclic d.Name))
    else
      match lookupDef defs d.Inherits with
      | some parent => verifyDependenciesF f parent defs (d.Name :: stack)
      | none => some (some (DepError.unresolved d.Name d.Inherits))

/-- A top-level call of `verifyDependencies` (Go passes `nil`, i.e. the
empty current stack).  Fuel `defs.length + 1` is proved sufficient for
well-formed definition maps below. -/
def verifyDependencies (d : ImageDefinition)
    (defs : List (String × ImageDefinition)) : Option (Option DepError) :=
  verifyDependenciesF (defs.length + 1) d defs []

/-- The validation loop of `BuildAllDefinitions` (images.go lines 107-113):
run `verifyDependencies` on every definition, stopping at the first error. -/
def verifyLoop (defs : List (String × ImageDefinition)) :
    List (String × ImageDefinition) → Option (Option DepError)
  | [] => some none
  | p :: rest =>
    match verifyDependencies p.2 defs with
    | none => none
    | some (some e) => some (some e)
    | some none => verifyLoop defs rest

/-- `BuildAllDefinitions` (images.go lines 86-116) restricted to its
validation phase: the directory scan producing `defs` is I/O and is taken
as input; the function returns the full map unchanged on success. -/
def buildAllDefinitions (defs : List (String × ImageDefinition)) :
    Option (Except DepError (List (String × ImageDefinition))) :=
  match verifyLoop defs defs with
  | none => none
  | some (some e) => some (Except.error e)
  | some none => some (Except.ok defs)

/-- A definition map as `BuildAllDefinitions` constructs it
(images.go line 104): each key is the stored definition's `Name`, and
keys are distinct (Go map keys are unique). -/
def WFDefs (defs : List (String × ImageDefinition)) : Prop :=
  (∀ p ∈ defs, (p.2).Name = p.1) ∧ (defs.map Prod.fst).Nodup

theorem lookupDef_mem {defs : List (String × ImageDefinition)} {q : String}
    {d : ImageDefinition} (h : lookupDef defs q = some d) : (q, d) ∈ defs := by
  induction defs with
  | nil => simp [lookupDef] at h
  | cons p rest ih =>
    rcases p with ⟨k, v⟩
    by_cases hk : k = q
    · subst hk
      simp [lookupDef] at h
      subst h
      exact List.mem_cons_self _ _
    · simp [lookupDef, hk] at h
      exact List.mem_cons_of_mem _ (ih h)

theorem lookupDef_name {defs : List (String × ImageDefinition)} {q : String}
    {d : ImageDefinition} (hWF : WFDefs defs) (h : lookupDef defs q = some d) :
    d.Name = q :=
  hWF.1 (q, d) (lookupDef_mem h)

theorem mem_lookupDef {defs : List (String × ImageDefinition)} {q : String}
    {d : ImageDefinition} (hnd : (defs.map Prod.fst).Nodup)
    (h : (q, d) ∈ defs) : lookupDef defs q = some d := by
  induction defs with
  | nil => simp at h
  | cons p rest ih =>
    rcases p with ⟨k, v⟩
    rcases List.mem_cons.mp h with h1 | h1
    · rcases Prod.mk.injEq .. ▸ h1 with ⟨hk, hv⟩
      simp [lookupDef, hk.symm, hv.symm]
    · have hk : k ≠ q := by
        intro hkq
        subst hkq
        have : k ∈ rest.map Prod.fst := List.mem_map.mpr ⟨(k, d), h1, rfl⟩
        exact (List.nodup_cons.mp hnd).1 this
      simp [lookupDef, hk]
      exact ih (List.nodup_cons.mp hnd).2 h1

theorem lookupDef_self {defs : List (String × ImageDefinition)}
    {p : String × ImageDefinition} (hWF : WFDefs defs) (h : p ∈ defs) :
    lookupDef defs p.2.Name = some p.2 := by
  have := hWF.1 p h
  rw [this]
  exact mem_lookupDef hWF.2 (by rcases p with ⟨k, v⟩; exact h)

/-- The number of map keys not yet on the current stack: the measure that
bounds the recursion depth of `verifyDependencies`. -/
def freeKeys (defs : List (String × ImageDefinition)) (stack : List String) : Nat :=
  ((defs.map Prod.fst).filter (fun k => decide (k ∉ stack))).length

theorem freeKeys_nil (defs : List (String × ImageDefinition)) :
    freeKeys defs [] = defs.length := by
  simp [freeKeys]

theorem freeKeys_pos {defs : List (String × ImageDefinition)} {stack : List String}
    {k : String} (hk : k ∈ defs.map Prod.fst) (hs : k ∉ stack) :
    1 ≤ freeKeys defs stack := by
  have hmem : k ∈ (defs.map Prod.fst).filter (fun k => decide (k ∉ stack)) :=
    List.mem_filter.mpr ⟨hk, by simpa using hs⟩
  exact List.length_pos.mpr (List.ne_nil_of_mem hmem)

theorem filter_stack_cons {l : List String} {s : List String} {a : String}
    (hnd : l.Nodup) (hal : a ∈ l) (has : a ∉ s) :
    (l.filter (fun x => decide (x ∉ a :: s))).length + 1
      = (l.filter (fun x => decide (x ∉ s))).length := by
  induction l with
  | nil => simp at hal
  | cons b t ih =>
    have hbt : b ∉ t := (List.nodup_cons.mp hnd).1
    have hndt : t.Nodup := (List.nodup_cons.mp hnd).2
    rcases List.mem_cons.mp hal with hab | hat
    · subst hab
      have h2 : (fun x => decide (x ∉ s)) a = true := by simpa using has
      rw [List.filter_cons_of_neg (by simp), List.filter_cons_of_pos (by simpa using h2)]
      have hcong : t.filter (fun x => decide (x ∉ a :: s))
          = t.filter (fun x => decide (x ∉ s)) := by
        apply List.filter_congr
        intro x hx
        have hxa : x ≠ a := fun hh => hbt (hh ▸ hx)
        simp [hxa]
      rw [hcong, List.length_cons]
    · have hba : b ≠ a := fun hh => hbt (hh ▸ hat)
      have hsplit : (fun x => decide (x ∉ a :: s)) b = (fun x => decide (x ∉ s)) b := by
        simp [hba]
      by_cases hb : b ∈ s
      · rw [List.filter_cons_of_neg (by simp [hb]),
          List.filter_cons_of_neg (by simp [hb])]
        exact ih hndt hat
      · rw [List.filter_cons_of_pos (by simp [hba, hb]),
          List.filter_cons_of_pos (by simp [hb])]
        simp only [List.length_cons]
        have := ih hndt hat
        omega

theorem freeKeys_cons {defs : List (String × ImageDefinition)} {stack : List String}
    {a : String} (hnd : (defs.map Prod.fst).Nodup) (ha : a ∈ defs.map Prod.fst)
    (has : a ∉ stack) :
    freeKeys defs (a :: stack) + 1 = freeKeys defs stack :=
  filter_stack_cons hnd ha has

/-- Fuel sufficiency: on a well-formed map, starting from one of the map's
own entries, fuel exceeding the number of keys not yet stacked is enough,
so the recursion never runs out. -/
theorem verifyDependenciesF_ne_none {defs : List (String × ImageDefinition)}
    (hWF : WFDefs defs) :
    ∀ (fuel : Nat) (d : ImageDefinition) (stack : List String),
      lookupDef defs d.Name = some d → d.Name ∉ stack →
      freeKeys defs stack < fuel →
      verifyDependenciesF fuel d defs stack ≠ none := by
  intro fuel
  induction fuel with
  | zero => intro d stack _ _ hlt; omega
  | succ f ih =>
    intro d stack hd hns hlt
    have hdkey : d.Name ∈ defs.map Prod.fst :=
      List.mem_map.mpr ⟨(d.Name, d), lookupDef_mem hd, rfl⟩
    simp only [verifyDependenciesF]
    by_cases hext : hasPrefixStr d.Inherits "external:" = true
    · simp [hext]
    · rw [Bool.not_eq_true] at hext
      simp only [hext, Bool.false_eq_true, if_false]
      by_cases hmem : d.Inherits ∈ stack
      · simp [hmem]
      · simp only [hmem, if_false]
        cases hpar : lookupDef defs d.Inherits with
        | none => simp
        | some p =>
          have hpName : p.Name = d.Inherits := lookupDef_name hWF hpar
          have hpc : lookupDef defs p.Name = some p := by rw [hpName]; exact hpar
          by_cases hpn : p.Name ∈ d.Name :: stack
          · have hpd : p.Name = d.Name := by
              rcases List.mem_cons.mp hpn with h1 | h1
              · exact h1
              · exact absurd (hpName ▸ h1) hmem
            have hpeq : p = d := by
              rw [hpd, hd] at hpc
              exact Option.some.inj hpc.symm
            subst hpeq
            have hinh : p.Inherits = p.Name := hpd ▸ hpName.symm
            have hfree : 1 ≤ freeKeys defs stack := freeKeys_pos hdkey hns
            obtain ⟨f2, rfl⟩ : ∃ f2, f = f2 + 1 := by
              rcases f with _ | f2
              · omega
              · exact ⟨f2, rfl⟩
            simp only [verifyDependenciesF, hext, Bool.false_eq_true, if_false]
            have : p.Inherits ∈ p.Name :: stack := by
              rw [hinh]; exact List.mem_cons_self _ _
            simp [this]
          · apply ih p (d.Name :: stack) hpc hpn
            have := freeKeys_cons hWF.2 hdkey hns
            omega

/-- Larger fuel never changes a settled result. -/
theorem verifyDependenciesF_mono :
    ∀ (n m : Nat) (d : ImageDefinition) (defs : List (String × ImageDefinition))
      (stack : List String) (r : Option DepError), n ≤ m →
      verifyDependenciesF n d defs stack = some r →
      verifyDependenciesF m d defs stack = some r := by
  intro n
  induction n with
  | zero => intro m d defs stack r _ h; simp [verifyDependenciesF] at h
  | succ k ih =>
    intro m d defs stack r hle h
    obtain ⟨m2, rfl⟩ : ∃ m2, m = m2 + 1 := by
      rcases m with _ | m2
      · omega
      · exact ⟨m2, rfl⟩
    simp only [verifyDependenciesF] at h ⊢
    by_cases hext : hasPrefixStr d.Inherits "external:" = true
    · simpa [hext] using h
    · rw [Bool.not_eq_true] at hext
      simp only [hext, Bool.false_eq_true, if_false] at h ⊢
      by_cases hmem : d.Inherits ∈ stack
      · simpa [hmem] using h
      · simp only [hmem, if_false] at h ⊢
        cases hpar : lookupDef defs d.Inherits with
        | none => simpa [hpar] using h
        | some p =>
          rw [hpar] at h
          exact ih m2 p defs (d.Name :: stack) r (by omega) h

/-- The inheritance chain of `d` terminates: either `d` inherits from an
external base, or its parent is present in the map and itself resolves.
This is exactly "no cycle on the chain and every parent resolvable", since
a cycle or a missing parent would make any derivation infinite or stuck. -/
inductive Resolves (defs : List (String × ImageDefinition)) : ImageDefinition → Prop where
  | external (d : ImageDefinition) :
      hasPrefixStr d.Inherits "external:" = true → Resolves defs d
  | step (d p : ImageDefinition) :
      ¬ hasPrefixStr d.Inherits "external:" = true →
      lookupDef defs d.Inherits = some p → Resolves defs p → Resolves defs d

/-- `x` occurs as a non-external `Inherits` value somewhere along the
inheritance chain starting at `d` (these are exactly the strings the
cycle check of `verifyDependencies` tests against the current stack). -/
inductive ChainInherits (defs : List (String × ImageDefinition)) :
    ImageDefinition → String → Prop where
  | base (d : ImageDefinition) :
      ¬ hasPrefixStr d.Inherits "external:" = true → ChainInherits defs d d.Inherits
  | step (d p : ImageDefinition) (x : String) :
      ¬ hasPrefixStr d.Inherits "external:" = true →
      lookupDef defs d.Inherits = some p →
      ChainInherits defs p x → ChainInherits defs d x

theorem chainInherits_trans {defs : List (String × ImageDefinition)}
    {a : ImageDefinition} {x : String} (h1 : ChainInherits defs a x) :
    ∀ {b : ImageDefinition} {y : String},
      lookupDef defs x = some b → ChainInherits defs b y → ChainInherits defs a y := by
  induction h1 with
  | base d hx =>
    intro b y hlk h2
    exact ChainInherits.step d b y hx hlk h2
  | step d p z hx hlk _ ih =>
    intro b y hlkz h2
    exact ChainInherits.step d p y hx hlk (ih hlkz h2)

/-- A resolving chain never mentions its own starting name (for an image
that is the map's entry for its name): a loop back to the start would make
the chain infinite. -/
theorem no_self_chain {defs : List (String × ImageDefinition)} (hWF : WFDefs defs)
    {d : ImageDefinition} (hres : Resolves defs d) :
    lookupDef defs d.Name = some d → ¬ ChainInherits defs d d.Name := by
  induction hres with
  | external d hx =>
    intro _ hch
    generalize hy : d.Name = y at hch
    cases hch with
    | base d2 hneg => exact hneg hx
    | step d2 p2 x2 hneg hlk2 hch2 => exact hneg hx
  | step d p hx hlk hres2 ih =>
    intro hd hch
    have hpName : p.Name = d.Inherits := lookupDef_name hWF hlk
    have hpc : lookupDef defs p.Name = some p := by rw [hpName]; exact hlk
    generalize hy : d.Name = y at hch
    cases hch with
    | base d2 hneg =>
      rw [← hy] at hlk
      rw [hd] at hlk
      have hpd : p = d := (Option.some.inj hlk).symm
      subst hpd
      apply ih hd
      rw [hy]
      exact ChainInherits.base p hx
    | step d2 p2 x2 hneg hlk2 hch2 =>
      subst hy
      have hp2 : p2 = p := by
        rw [hlk] at hlk2
        exact (Option.some.inj hlk2).symm
      rw [hp2] at hch2
      have hb : ChainInherits defs d p.Name := by
        rw [hpName]
        exact ChainInherits.base d hx
      exact ih hpc (chainInherits_trans hch2 hd hb)

/-- A resolving image (consistent with the map) passes `verifyDependencies`
with some amount of fuel, from any stack that avoids its chain. -/
theorem resolves_success {defs : List (String × ImageDefinition)} (hWF : WFDefs defs)
    {d : ImageDefinition} (hres : Resolves defs d) :
    lookupDef defs d.Name = some d →
    ∀ stack : List String, (∀ x ∈ stack, ¬ ChainInherits defs d x) →
    ∃ n, verifyDependenciesF n d defs stack = some none := by
  induction hres with
  | external d hx =>
    intro _ stack _
    exact ⟨1, by simp [verifyDependenciesF, hx]⟩
  | step d p hx hlk hres2 ih =>
    intro hd stack hstack
    have hnm : d.Inherits ∉ stack := fun hm => hstack _ hm (ChainInherits.base d hx)
    have hpName : p.Name = d.Inherits := lookupDef_name hWF hlk
    have hpc : lookupDef defs p.Name = some p := by rw [hpName]; exact hlk
    have hstack2 : ∀ x ∈ d.Name :: stack, ¬ ChainInherits defs p x := by
      intro x hxm hch
      rcases List.mem_cons.mp hxm with h1 | h1
      · subst h1
        exact no_self_chain hWF (Resolves.step d p hx hlk hres2) hd
          (ChainInherits.step d p d.Name hx hlk hch)
      · exact hstack x h1 (ChainInherits.step d p x hx hlk hch)
    obtain ⟨n, hn⟩ := ih hpc (d.Name :: stack) hstack2
    exact ⟨n + 1, by simp [verifyDependenciesF, hx, hnm, hlk, hn]⟩

theorem cycle_pair_aux {defs : List (String × ImageDefinition)} (hWF : WFDefs defs)
    {x y : String} {dX dY : ImageDefinition}
    (hx : lookupDef defs x = some dX) (hy : lookupDef defs y = some dY)
    (hXY : dX.Inherits = y) (hYX : dY.Inherits = x)
    (hxe : hasPrefixStr x "external:" = false)
    (hye : hasPrefixStr y "external:" = false) :
    verifyDependencies dX defs = some (some (DepError.cyclic dY.Name)) := by
  obtain ⟨n, hn⟩ : ∃ n, defs.length = n + 1 := by
    cases defs with
    | nil => simp [lookupDef] at hx
    | cons p rest => exact ⟨rest.length, rfl⟩
  have hXname : dX.Name = x := lookupDef_name hWF hx
  rw [verifyDependencies, hn]
  simp [verifyDependenciesF, hXY, hYX, hye, hxe, hy, hXname]

/-- C1: for a definition set containing a two-image inheritance cycle
A→B→A (both names non-external), the per-image dependency validation run
by `BuildAllDefinitions` fails with a cyclic-dependency error from both
entry points, naming in each case the image where the cycle is detected. -/
theorem verify_cycle_pair_fails {defs : List (String × ImageDefinition)}
    (hWF : WFDefs defs) {a b : String} {dA dB : ImageDefinition}
    (ha : lookupDef defs a = some dA) (hb : lookupDef defs b = some dB)
    (hAB : dA.Inherits = b) (hBA : dB.Inherits = a)
    (hae : hasPrefixStr a "external:" = false)
    (hbe : hasPrefixStr b "external:" = false) :
    verifyDependencies dA defs = some (some (DepError.cyclic dB.Name)) ∧
    verifyDependencies dB defs = some (some (DepError.cyclic dA.Name)) :=
  ⟨cycle_pair_aux hWF ha hb hAB hBA hae hbe,
   cycle_pair_aux hWF hb ha hBA hAB hbe hae⟩

def imgA : ImageDefinition := ⟨"A", "/imgs/A", "/imgs", "B"⟩

def imgB : ImageDefinition := ⟨"B", "/imgs/B", "/imgs", "A"⟩

def defsCyc : List (String × ImageDefinition) := [("A", imgA), ("B", imgB)]

theorem verify_cycle_pair_fails_w :
    verifyDependencies imgA defsCyc = some (some (DepError.cyclic "B")) ∧
    verifyDependencies imgB defsCyc = some (some (DepError.cyclic "A")) :=
  @verify_cycle_pair_fails defsCyc ⟨by decide, by decide⟩ "A" "B" imgA imgB
    (by decide) (by decide) (by decide) (by decide) (by decide) (by decide)

/-- C3: an image whose `Inherits` value is not external and names a parent
absent from the definition set fails validation with an unresolved-parent
error naming both the image and the exact missing parent. -/
theorem verify_unresolved_parent {defs : List (String × ImageDefinition)}
    {d : ImageDefinition}
    (hext : hasPrefixStr d.Inherits "external:" = false)
    (hlk : lookupDef defs d.Inherits = none) :
    verifyDependencies d defs
      = some (some (DepError.unresolved d.Name d.Inherits)) := by
  rw [verifyDependencies]
  simp [verifyDependenciesF, hext, hlk]

def imgSolo : ImageDefinition := ⟨"solo", "/imgs/solo", "/imgs", "ghost"⟩

def defsSolo : List (String × ImageDefinition) := [("solo", imgSolo)]

theorem verify_unresolved_parent_w :
    verifyDependencies imgSolo defsSolo
      = some (some (DepError.unresolved "solo" "ghost")) :=
  @verify_unresolved_parent defsSolo imgSolo (by decide) (by decide)

/-- C10: `verifyDependencies` terminates on every well-formed finite
definition set and every starting image from the set — cyclic sets
included — because fuel `defs.length + 1` (the bound on the recursion
depth) is never exhausted. -/
theorem verify_terminates {defs : List (String × ImageDefinition)}
    (hWF : WFDefs defs) {d : ImageDefinition}
    (hd : lookupDef defs d.Name = some d) :
    verifyDependencies d defs ≠ none := by
  rw [verifyDependencies]
  exact verifyDependenciesF_ne_none hWF (defs.length + 1) d [] hd (by simp)
    (by rw [freeKeys_nil]; omega)

theorem verify_terminates_w : verifyDependencies imgA defsCyc ≠ none :=
  @verify_terminates defsCyc ⟨by decide, by decide⟩ imgA (by decide)

theorem verifyLoop_ok (defs : List (String × ImageDefinition)) :
    ∀ l, (∀ p ∈ l, verifyDependencies p.2 defs = some none) →
      verifyLoop defs l = some none := by
  intro l
  induction l with
  | nil => intro _; rfl
  | cons p rest ih =>
    intro h
    have hp := h p (List.mem_cons_self _ _)
    simp only [verifyLoop, hp]
    exact ih (fun q hq => h q (List.mem_cons_of_mem _ hq))

/-- C2: on a well-formed definition set in which every image's inheritance
chain resolves — no cycle, every non-external parent present, every chain
ending at an external marker — `verifyDependencies` succeeds for every
image and `BuildAllDefinitions`' validation returns the full map. -/
theorem buildAll_success {defs : List (String × ImageDefinition)}
    (hWF : WFDefs defs) (hres : ∀ p ∈ defs, Resolves defs p.2) :
    (∀ p ∈ defs, verifyDependencies p.2 defs = some none) ∧
    buildAllDefinitions defs = some (Except.ok defs) := by
  have hall : ∀ p ∈ defs, verifyDependencies p.2 defs = some none := by
    intro p hp
    have hcons : lookupDef defs p.2.Name = some p.2 := lookupDef_self hWF hp
    obtain ⟨n, hn⟩ := resolves_success hWF (hres p hp) hcons []
      (by intro x hx; simp at hx)
    have hne : verifyDependenciesF (defs.length + 1) p.2 defs [] ≠ none :=
      verifyDependenciesF_ne_none hWF (defs.length + 1) p.2 [] hcons (by simp)
        (by rw [freeKeys_nil]; omega)
    rw [verifyDependencies]
    cases hF : verifyDependenciesF (defs.length + 1) p.2 defs [] with
    | none => exact absurd hF hne
    | some r =>
      rcases Nat.le_total n (defs.length + 1) with hle | hle
      · have h2 := verifyDependenciesF_mono n (defs.length + 1) p.2 defs [] none hle hn
        rw [hF] at h2
        exact h2
      · have h2 := verifyDependenciesF_mono (defs.length + 1) n p.2 defs [] r hle hF
        rw [hn] at h2
        exact h2.symm
  refine ⟨hall, ?_⟩
  have hloop := verifyLoop_ok defs defs hall
  simp [buildAllDefinitions, hloop]

def imgBase : ImageDefinition := ⟨"base", "/imgs/base", "/imgs", "external:archlinux"⟩

def imgChild : ImageDefinition := ⟨"child", "/imgs/child", "/imgs", "base"⟩

def defsOk : List (String × ImageDefinition) := [("base", imgBase), ("child", imgChild)]

theorem buildAll_success_w :
    buildAllDefinitions defsOk = some (Except.ok defsOk) := by
  have hres : ∀ p ∈ defsOk, Resolves defsOk p.2 := by
    intro p hp
    rcases List.mem_cons.mp hp with h | h
    · subst h
      exact Resolves.external imgBase (by decide)
    · rcases List.mem_cons.mp h with h2 | h2
      · subst h2
        exact Resolves.step imgChild imgBase (by decide) (by decide)
          (Resolves.external imgBase (by decide))
      · simp at h2
  exact (buildAll_success ⟨by decide, by decide⟩ hres).2

/-- One external command invocation: the program and its arguments, as
assembled by `BuildImageLayer`/`ExtractImage` and shelled out through
`runCommand` (images.go lines 310-317). -/
structure Cmd where
  program : String
  args : List String
deriving Repr, DecidableEq

/-- Observable effect state of a run: how many external commands were
started so far (`k`, which indexes the success oracle) and the sequence of
commands issued. -/
structure ExecTrace where
  k : Nat
  trace : List Cmd
deriving Repr, DecidableEq

/-- `runCommand` (images.go lines 310-317): issue the command and report
failure according to the oracle; a failure is identified by the command
that failed. -/
def runCommand (oracle : Nat → Bool) (c : Cmd) (s : ExecTrace) :
    Option Cmd × ExecTrace :=
  (if oracle s.k then none else some c, ⟨s.k + 1, s.trace ++ [c]⟩)

def stopCmd (containerName : String) : Cmd := Cmd.mk "docker" ["stop", containerName]

def rmCmd (containerName : String) : Cmd := Cmd.mk "docker" ["rm", containerName]

/-- `destroyContainer` (images.go lines 319-331): `docker stop`, then
`docker rm`, stopping at the first failure. -/
def destroyContainer (oracle : Nat → Bool) (containerName : String) (s : ExecTrace) :
    Option Cmd × ExecTrace :=
  match runCommand oracle (stopCmd containerName) s with
  | (some e, s1) => (some e, s1)
  | (none, s1) => runCommand oracle (rmCmd containerName) s1

/-- images.go line 140. -/
def buildTmpImageName (d : ImageDefinition) : String := "darch-building-" ++ d.Name

/-- Parent-reference resolution of `BuildImageLayer` (images.go lines
130-135): strip the `external:` marker, or prepend the build prefix. -/
def resolveInherits (inh bp : String) : String :=
  if hasPrefixStr inh "external:" then String.mk (inh.data.drop "external:".data.length)
  else bp ++ inh

/-- The `-e NAME=VALUE` argument pairs of images.go lines 187-190. -/
def envArgs : List (String × String) → List String
  | [] => []
  | (n, v) :: rest => "-e" :: (n ++ "=" ++ v) :: envArgs rest

/-- The initial `docker run` of `BuildImageLayer` (images.go lines 142-155). -/
def buildRunCmd (d : ImageDefinition) (bp packageCache : String) : Cmd :=
  Cmd.mk "docker"
    (["run", "-d", "-v", d.ImagesDir ++ ":/images"] ++
     (if 0 < packageCache.length then ["-v", packageCache ++ ":/packages"] else []) ++
     ["--privileged", "--name", buildTmpImageName d, resolveInherits d.Inherits bp])

/-- The docker commands `BuildImageLayer` issues after the container is
running (images.go lines 162-225), in program order: mount plumbing, the
build script, mount cleanup, the commit, and one `docker tag` per tag. -/
def buildExecCmds (d : ImageDefinition) (tags : List String)
    (bp packageCache : String) (envVars : List (String × String)) : List Cmd :=
  let tmp := buildTmpImageName d
  [Cmd.mk "docker" ["exec", "--privileged", tmp, "mkdir", "/root.x86_64/images/"],
   Cmd.mk "docker" ["exec", "--privileged", tmp, "bash", "-c",
     "echo \"chroot_add_mount /images \\\"/root.x86_64/images\\\" --bind\" >> /arch-chroot-customizations"]] ++
  (if 0 < packageCache.length then
    [Cmd.mk "docker" ["exec", "--privileged", tmp, "mkdir", "-p",
       "/root.x86_64/var/cache/pacman/pkg/"],
     Cmd.mk "docker" ["exec", "--privileged", tmp, "bash", "-c",
       "echo \"chroot_add_mount /packages \\\"/root.x86_64/var/cache/pacman/pkg/\\\" --bind\" >> /arch-chroot-customizations"]]
   else []) ++
  [Cmd.mk "docker" (["exec", "--privileged"] ++ envArgs envVars ++
     [tmp, "arch-chroot-custom", "/root.x86_64", "/bin/bash", "-c",
      "cd /images/" ++ d.Name ++ " && ./script"]),
   Cmd.mk "docker" ["exec", "--privileged", tmp, "rm", "-r", "/root.x86_64/images"],
   Cmd.mk "docker" ["exec", "--privileged", tmp, "rm", "-r", "-f",
     "/root.x86_64/var/cache/pacman/pkg/"],
   Cmd.mk "docker" ["commit", tmp, bp ++ d.Name]] ++
  tags.map (fun tag => Cmd.mk "docker" ["tag", d.Name, bp ++ d.Name ++ ":" ++ tag])

/-- All docker commands of one `BuildImageLayer` call, in program order. -/
def buildPrimaryCmds (d : ImageDefinition) (tags : List String)
    (bp packageCache : String) (envVars : List (String × String)) : List Cmd :=
  buildRunCmd d bp packageCache :: buildExecCmds d tags bp packageCache envVars

/-- The uniform step pattern of `BuildImageLayer` after the container is
up: every command in Go is followed by
`if err != nil { destroyContainer(tmp); return err }` (the destroy error
is discarded), and the all-success path ends with
`return destroyContainer(tmp)` (images.go lines 162-227). -/
def runSteps (oracle : Nat → Bool) (tmp : String) :
    List Cmd → ExecTrace → Option Cmd × ExecTrace
  | [], s => destroyContainer oracle tmp s
  | c :: rest, s =>
    match runCommand oracle c s with
    | (some e, s1) => (some e, (destroyContainer oracle tmp s1).2)
    | (none, s1) => runSteps oracle tmp rest s1

inductive BuildErr where
  | hostMkdir
  | cmdFailed (c : Cmd)
deriving Repr, DecidableEq

/-- `BuildImageLayer` (images.go lines 118-228).  The host-side
`os.MkdirAll` of the package cache (lines 121-128) is modelled by two
booleans; note that a failure of the very first `docker run` returns
without any destroy (lines 155-158), while every later failure destroys
the container first. -/
def buildImageLayer (oracle : Nat → Bool) (pkgCacheDirExists mkdirOk : Bool)
    (d : ImageDefinition) (tags : List String) (bp packageCache : String)
    (envVars : List (String × String)) : Option BuildErr × ExecTrace :=
  if 0 < packageCache.length ∧ pkgCacheDirExists = false ∧ mkdirOk = false then
    (some BuildErr.hostMkdir, ExecTrace.mk 0 [])
  else
    match runCommand oracle (buildRunCmd d bp packageCache) (ExecTrace.mk 0 []) with
    | (some c, s1) => (some (BuildErr.cmdFailed c), s1)
    | (none, s1) =>
      match runSteps oracle (buildTmpImageName d)
          (buildExecCmds d tags bp packageCache envVars) s1 with
      | (some c, s2) => (some (BuildErr.cmdFailed c), s2)
      | (none, s2) => (none, s2)

/-- How many times a given command occurs in a trace. -/
def countCmd (c : Cmd) (trace : List Cmd) : Nat :=
  (trace.filter (fun x => decide (x = c))).length

theorem countCmd_append (c : Cmd) (t1 t2 : List Cmd) :
    countCmd c (t1 ++ t2) = countCmd c t1 + countCmd c t2 := by
  simp [countCmd, List.filter_append]

theorem countCmd_single_ne {c x : Cmd} (h : x ≠ c) : countCmd c [x] = 0 := by
  simp [countCmd, h]

theorem countCmd_single_eq (c : Cmd) : countCmd c [c] = 1 := by
  simp [countCmd]

theorem rm_ne_stop (n : String) : rmCmd n ≠ stopCmd n := by
  simp [rmCmd, stopCmd]

/-- Destroying appends exactly one `docker stop` (and possibly one
`docker rm`) to the trace. -/
theorem destroy_count (oracle : Nat → Bool) (tmp : String) (s : ExecTrace) :
    countCmd (stopCmd tmp) (destroyContainer oracle tmp s).2.trace
      = countCmd (stopCmd tmp) s.trace + 1 := by
  simp only [destroyContainer, runCommand]
  by_cases h : oracle s.k = true
  · simp [h, countCmd, List.filter_append, rm_ne_stop tmp]
  · simp only [Bool.not_eq_true] at h
    simp [h, countCmd_append, countCmd_single_eq]

/-- If the first oracle failure within `cmds` hits index `j`, the step
runner returns exactly the `j`-th command as the error and has issued
exactly one extra `docker stop` (one destroy) by the time it returns. -/
theorem runSteps_first_fail (oracle : Nat → Bool) (tmp : String) :
    ∀ (cmds : List Cmd) (s : ExecTrace) (j : Nat),
      (∀ c ∈ cmds, c ≠ stopCmd tmp) →
      (∀ i, i < j → oracle (s.k + i) = true) →
      j < cmds.length → oracle (s.k + j) = false →
      ∃ c sF, cmds[j]? = some c ∧ runSteps oracle tmp cmds s = (some c, sF) ∧
        countCmd (stopCmd tmp) sF.trace = countCmd (stopCmd tmp) s.trace + 1 := by
  intro cmds
  induction cmds with
  | nil => intro s j _ _ hj _; simp at hj
  | cons c rest ih =>
    intro s j hnot hpre hj hfail
    cases j with
    | zero =>
      have h0 : oracle s.k = false := by simpa using hfail
      refine ⟨c, (destroyContainer oracle tmp ⟨s.k + 1, s.trace ++ [c]⟩).2, by simp, ?_, ?_⟩
      · simp [runSteps, runCommand, h0]
      · rw [destroy_count]
        have hc : c ≠ stopCmd tmp := hnot c (List.mem_cons_self _ _)
        simp [countCmd_append, countCmd_single_ne hc]
    | succ j2 =>
      have h0 : oracle s.k = true := by simpa using hpre 0 (Nat.succ_pos j2)
      have hrec := ih ⟨s.k + 1, s.trace ++ [c]⟩ j2
        (fun q hq => hnot q (List.mem_cons_of_mem _ hq))
        (fun i hi => by
          have h1 := hpre (i + 1) (by omega)
          have e : s.k + (i + 1) = s.k + 1 + i := by omega
          rw [e] at h1
          exact h1)
        (by simpa using hj)
        (by
          have e : s.k + (j2 + 1) = s.k + 1 + j2 := by omega
          rw [e] at hfail
          exact hfail)
      obtain ⟨cF, sF, hg, hr, hcnt⟩ := hrec
      refine ⟨cF, sF, by simpa using hg, ?_, ?_⟩
      · simp only [runSteps, runCommand, h0, if_true]
        exact hr
      · rw [hcnt]
        have hc : c ≠ stopCmd tmp := hnot c (List.mem_cons_self _ _)
        simp [countCmd_append, countCmd_single_ne hc]

/-- Every primary command of a build starts with a `run`, `exec`,
`commit` or `tag` argument. -/
theorem buildPrimaryCmds_head_or (d : ImageDefinition) (tags : List String)
    (bp packageCache : String) (envVars : List (String × String)) :
    ∀ c ∈ buildPrimaryCmds d tags bp packageCache envVars,
      c.args.head? = some "run" ∨ c.args.head? = some "exec" ∨
      c.args.head? = some "commit" ∨ c.args.head? = some "tag" := by
  intro c hc
  by_cases hp : 0 < packageCache.length
  · simp [buildPrimaryCmds, buildRunCmd, buildExecCmds, hp] at hc
    rcases hc with h | h | h | h | h | h | h | h | h | ⟨t, ht, h⟩ <;> subst h <;> simp
  · simp [buildPrimaryCmds, buildRunCmd, buildExecCmds, hp] at hc
    rcases hc with h | h | h | h | h | h | h | ⟨t, ht, h⟩ <;> subst h <;> simp

/-- No primary command is one of the two cleanup commands of
`destroyContainer`. -/
theorem buildPrimaryCmds_ne_cleanup (d : ImageDefinition) (tags : List String)
    (bp packageCache : String) (envVars : List (String × String)) (x : String) :
    ∀ c ∈ buildPrimaryCmds d tags bp packageCache envVars,
      c ≠ stopCmd x ∧ c ≠ rmCmd x := by
  intro c hc
  have h := buildPrimaryCmds_head_or d tags bp packageCache envVars c hc
  constructor
  · intro he
    subst he
    simp [stopCmd] at h
  · intro he
    subst he
    simp [rmCmd] at h

/-- C4: in `BuildImageLayer`, for any failure at a step after the
container has been started (any exec, commit, or tag step — the first
failing oracle index `j` being at least 1), `destroyContainer` is invoked
exactly once before the function returns (exactly one `docker stop` in
the final trace), and the error surfaced to the caller is the failing
primary command itself, never a cleanup (`stop`/`rm`) failure. -/
theorem buildImageLayer_teardown (oracle : Nat → Bool)
    (pkgCacheDirExists mkdirOk : Bool) (d : ImageDefinition) (tags : List String)
    (bp packageCache : String) (envVars : List (String × String)) (j : Nat)
    (hhost : ¬ (0 < packageCache.length ∧ pkgCacheDirExists = false ∧ mkdirOk = false))
    (hpre : ∀ i, i < j → oracle i = true) (hj1 : 1 ≤ j)
    (hj : j < (buildPrimaryCmds d tags bp packageCache envVars).length)
    (hfail : oracle j = false) :
    ∃ c sF,
      (buildPrimaryCmds d tags bp packageCache envVars)[j]? = some c ∧
      buildImageLayer oracle pkgCacheDirExists mkdirOk d tags bp packageCache envVars
        = (some (BuildErr.cmdFailed c), sF) ∧
      countCmd (stopCmd (buildTmpImageName d)) sF.trace = 1 ∧
      c ≠ stopCmd (buildTmpImageName d) ∧ c ≠ rmCmd (buildTmpImageName d) := by
  obtain ⟨j2, rfl⟩ : ∃ j2, j = j2 + 1 := by
    rcases j with _ | j2
    · omega
    · exact ⟨j2, rfl⟩
  have h0 : oracle 0 = true := hpre 0 (by omega)
  have hrun : runCommand oracle (buildRunCmd d bp packageCache) (ExecTrace.mk 0 [])
      = (none, ExecTrace.mk 1 [buildRunCmd d bp packageCache]) := by
    simp [runCommand, h0]
  obtain ⟨c, sF, hg, hr, hcnt⟩ := runSteps_first_fail oracle (buildTmpImageName d)
    (buildExecCmds d tags bp packageCache envVars)
    (ExecTrace.mk 1 [buildRunCmd d bp packageCache]) j2
    (fun q hq => (buildPrimaryCmds_ne_cleanup d tags bp packageCache envVars
      (buildTmpImageName d) q (List.mem_cons_of_mem _ hq)).1)
    (fun i hi => by
      have h1 := hpre (i + 1) (by omega)
      have e : i + 1 = 1 + i := by omega
      rw [e] at h1
      exact h1)
    (by simpa [buildPrimaryCmds] using hj)
    (by
      have e : j2 + 1 = 1 + j2 := by omega
      rw [e] at hfail
      exact hfail)
  have hmem : c ∈ buildPrimaryCmds d tags bp packageCache envVars :=
    List.mem_cons_of_mem _ (List.getElem?_mem hg)
  have hne := buildPrimaryCmds_ne_cleanup d tags bp packageCache envVars
    (buildTmpImageName d) c hmem
  refine ⟨c, sF, by simpa [buildPrimaryCmds] using hg, ?_, ?_, hne.1, hne.2⟩
  · simp only [buildImageLayer, if_neg hhost, hrun, hr]
  · rw [hcnt]
    have hrc : buildRunCmd d bp packageCache ≠ stopCmd (buildTmpImageName d) :=
      (buildPrimaryCmds_ne_cleanup d tags bp packageCache envVars
        (buildTmpImageName d) _ (List.mem_cons_self _ _)).1
    simp [countCmd_single_ne hrc]

def imgW : ImageDefinition := ⟨"web", "/imgs/web", "/imgs", "external:archlinux"⟩

/-- An oracle that fails exactly the second docker command. -/
def failAt1 : Nat → Bool := fun i => decide (i ≠ 1)

theorem buildImageLayer_teardown_w :
    ∃ c sF,
      (buildPrimaryCmds imgW [] "dp-" "" [])[1]? = some c ∧
      buildImageLayer failAt1 false true imgW [] "dp-" "" []
        = (some (BuildErr.cmdFailed c), sF) ∧
      countCmd (stopCmd (buildTmpImageName imgW)) sF.trace = 1 ∧
      c ≠ stopCmd (buildTmpImageName imgW) ∧ c ≠ rmCmd (buildTmpImageName imgW) :=
  buildImageLayer_teardown failAt1 false true imgW [] "dp-" "" [] 1
    (by decide) (by decide) (by decide) (by decide) (by decide)

def imgT : ImageDefinition := ⟨"base", "/imgs/base", "/imgs", "external:archlinux"⟩

/-- C5 evidence: `BuildImageLayer` commits the container as
`buildPrefix + Name` (`darch-built/base`), but the subsequent tag command
(images.go line 220) passes the unprefixed `imageDefinition.Name`
(`base`) as the tag's source image, not the committed artifact. -/
theorem buildTag_source_unprefixed :
    (buildPrimaryCmds imgT ["v1"] "darch-built/" "" [])[6]?
      = some (Cmd.mk "docker" ["commit", "darch-building-base", "darch-built/base"]) ∧
    (buildPrimaryCmds imgT ["v1"] "darch-built/" "" [])[7]?
      = some (Cmd.mk "docker" ["tag", "base", "darch-built/base:v1"]) ∧
    "base" ≠ "darch-built/base" := by
  refine ⟨?_, ?_, by decide⟩
  · rfl
  · rfl

/-- The parsed shape of `config.json` (images.go lines 24-26). -/
structure imageConfiguration where
  Inherits : String
deriving Repr, DecidableEq

/-- The filesystem facts consulted by `BuildDefinition`: whether the image
directory exists, whether `config.json` exists, and the result of reading
and unmarshalling it (`none` = read/parse error; Go's `json.Unmarshal`
leaves `Inherits` empty when the field is absent, so a missing inherits
declaration appears here as `some ⟨""⟩`). -/
structure ImageFS where
  dirExists : Bool
  configFileExists : Bool
  configParse : Option imageConfiguration
deriving Repr, DecidableEq

inductive DefBuildError where
  | noImageName
  | noImagesDir
  | imageDirMissing (dir : String)
  | configMissing (p : String)
  | unmarshalError
  | noInherit (image : String)
deriving Repr, DecidableEq

/-- `loadImageConfiguration` (images.go lines 283-308). -/
def loadImageConfiguration (fs : ImageFS) (image : ImageDefinition) :
    Except DefBuildError imageConfiguration :=
  let cfgPath := image.ImageDir ++ "/config.json"
  if fs.configFileExists = false then
    Except.error (DefBuildError.configMissing cfgPath)
  else
    match fs.configParse with
    | none => Except.error DefBuildError.unmarshalError
    | some cfg =>
      if cfg.Inherits.length = 0 then
        Except.error (DefBuildError.noInherit image.Name)
      else Except.ok cfg

/-- `BuildDefinition` (images.go lines 29-58); `utils.ExpandPath` and
`path.Join` are external utilities, the former abstracted as a parameter,
the latter as separator concatenation. -/
def BuildDefinition (expandPath : String → String) (fs : ImageFS)
    (imageName imagesDir : String) : Except DefBuildError ImageDefinition :=
  if imageName.length = 0 then Except.error DefBuildError.noImageName
  else if imagesDir.length = 0 then Except.error DefBuildError.noImagesDir
  else
    let imagesDirE := expandPath imagesDir
    let imageDir := imagesDirE ++ "/" ++ imageName
    if fs.dirExists = false then
      Except.error (DefBuildError.imageDirMissing imageDir)
    else
      match loadImageConfiguration fs (ImageDefinition.mk imageName imageDir imagesDirE "") with
      | Except.error e => Except.error e
      | Except.ok cfg =>
        Except.ok (ImageDefinition.mk imageName imageDir imagesDirE cfg.Inherits)

theorem loadImageConfiguration_ok {fs : ImageFS} {image : ImageDefinition}
    {cfg : imageConfiguration}
    (h : loadImageConfiguration fs image = Except.ok cfg) : cfg.Inherits ≠ "" := by
  simp only [loadImageConfiguration] at h
  by_cases h1 : fs.configFileExists = false
  · simp [h1] at h
  · rw [if_neg h1] at h
    cases hp : fs.configParse with
    | none => rw [hp] at h; simp at h
    | some cfg2 =>
      rw [hp] at h
      by_cases h2 : cfg2.Inherits.length = 0
      · simp [h2] at h
      · simp only [h2, if_false, Except.ok.injEq] at h
        subst h
        intro he
        apply h2
        rw [he]
        rfl

/-- C6: `BuildDefinition` fails when the image directory or its manifest
is absent; fails with a definition error naming the image when the
manifest parses but the inherits declaration is absent or empty; and it
never constructs an `ImageDefinition` with an empty `Inherits` field. -/
theorem buildDefinition_errors (expandPath : String → String) (fs : ImageFS)
    (imageName imagesDir : String) :
    (fs.dirExists = false →
      ∃ e, BuildDefinition expandPath fs imageName imagesDir = Except.error e) ∧
    (fs.configFileExists = false →
      ∃ e, BuildDefinition expandPath fs imageName imagesDir = Except.error e) ∧
    (∀ cfg, imageName.length ≠ 0 → imagesDir.length ≠ 0 → fs.dirExists = true →
      fs.configFileExists = true → fs.configParse = some cfg → cfg.Inherits = "" →
      BuildDefinition expandPath fs imageName imagesDir
        = Except.error (DefBuildError.noInherit imageName)) ∧
    (∀ img, BuildDefinition expandPath fs imageName imagesDir = Except.ok img →
      img.Inherits ≠ "") := by
  refine ⟨?_, ?_, ?_, ?_⟩
  · intro h
    by_cases h1 : imageName.length = 0
    · exact ⟨DefBuildError.noImageName, by simp [BuildDefinition, h1]⟩
    · by_cases h2 : imagesDir.length = 0
      · exact ⟨DefBuildError.noImagesDir, by simp [BuildDefinition, h1, h2]⟩
      · exact ⟨DefBuildError.imageDirMissing (expandPath imagesDir ++ "/" ++ imageName),
          by simp [BuildDefinition, h1, h2, h]⟩
  · intro h
    by_cases h1 : imageName.length = 0
    · exact ⟨DefBuildError.noImageName, by simp [BuildDefinition, h1]⟩
    · by_cases h2 : imagesDir.length = 0
      · exact ⟨DefBuildError.noImagesDir, by simp [BuildDefinition, h1, h2]⟩
      · by_cases h3 : fs.dirExists = false
        · exact ⟨DefBuildError.imageDirMissing (expandPath imagesDir ++ "/" ++ imageName),
            by simp [BuildDefinition, h1, h2, h3]⟩
        · exact ⟨DefBuildError.configMissing
              (expandPath imagesDir ++ "/" ++ imageName ++ "/config.json"),
            by simp [BuildDefinition, loadImageConfiguration, h1, h2, h3, h]⟩
  · intro cfg h1 h2 h3 h4 h5 h6
    have h7 : cfg.Inherits.length = 0 := by rw [h6]; rfl
    have h3b : ¬ fs.dirExists = false := by simp [h3]
    have h4b : ¬ fs.configFileExists = false := by simp [h4]
    simp [BuildDefinition, loadImageConfiguration, h1, h2, h3b, h4b, h5, h7]
  · intro img h
    simp only [BuildDefinition] at h
    by_cases h1 : imageName.length = 0
    · simp [h1] at h
    · by_cases h2 : imagesDir.length = 0
      · simp [h1, h2] at h
      · by_cases h3 : fs.dirExists = false
        · simp [h1, h2, h3] at h
        · rw [if_neg h1, if_neg h2, if_neg h3] at h
          cases hload : loadImageConfiguration fs
              (ImageDefinition.mk imageName
                (expandPath imagesDir ++ "/" ++ imageName) (expandPath imagesDir) "") with
          | error e => rw [hload] at h; simp at h
          | ok cfg =>
            rw [hload] at h
            simp only [Except.ok.injEq] at h
            subst h
            exact loadImageConfiguration_ok hload

def fsNoInherit : ImageFS := ⟨true, true, some ⟨""⟩⟩

theorem buildDefinition_errors_w :
    BuildDefinition (fun s => s) fsNoInherit "web" "/imgs"
      = Except.error (DefBuildError.noInherit "web") :=
  (buildDefinition_errors (fun s => s) fsNoInherit "web" "/imgs").2.2.1 ⟨""⟩
    (by decide) (by decide) rfl rfl rfl rfl

/-- `utils.CleanDirectory`: external collaborator that removes all
contents of a directory without removing the directory itself (spec §6). -/
def cleanDirectory (_files : List (String × String)) : List (String × String) := []

/-- The destination-directory effect of the CLI `ExtractImage`
(images.go lines 231-281) on its success path: create the directory if
absent (lines 239-244), clear it (line 246), then `docker cp` the three
artifacts into it.  The copied contents are those of the unchanged source
image, supplied as `squash`/`vmlinuz`/`initramfs`; the destination is a
map from file path to contents, `none` meaning the directory is absent. -/
def extractImageDest (dest : Option (List (String × String)))
    (destination squash vmlinuz initramfs : String) : List (String × String) :=
  let d0 := match dest with
    | none => []
    | some fs => fs
  let d1 := cleanDirectory d0
  d1 ++ [(destination ++ "/rootfs.squash", squash),
         (destination ++ "/vmlinuz-linux", vmlinuz),
         (destination ++ "/initramfs-linux.img", initramfs)]

/-- C7: `ExtractImage` creates the destination if absent and clears all
pre-existing contents before writing, so its result is independent of the
prior destination state, and a second extraction of the unchanged image
over the first one's output reproduces it exactly (idempotence in the
destination). -/
theorem extractImage_idempotent (destination squash vmlinuz initramfs : String) :
    (∀ d d2 : Option (List (String × String)),
      extractImageDest d destination squash vmlinuz initramfs
        = extractImageDest d2 destination squash vmlinuz initramfs) ∧
    (∀ d : Option (List (String × String)),
      extractImageDest (some (extractImageDest d destination squash vmlinuz initramfs))
          destination squash vmlinuz initramfs
        = extractImageDest d destination squash vmlinuz initramfs) := by
  constructor
  · intro d d2
    cases d <;> cases d2 <;> rfl
  · intro d
    cases d <;> rfl

/-- One entry of the snapshot's upper-layer mount as observed by the
`filepath.Walk` callback of the containerd `ExtractImage`: its path
(segments relative to the temporary mount root) and whether it is a
directory (`os.FileInfo.IsDir` is the only attribute the callback
inspects). -/
structure FSEntry where
  segs : List String
  isDir : Bool
deriving Repr, DecidableEq

/-- `filepath.Walk(path.Join(root, "extract"), ...)` (repository package
line 78): the walk visits exactly the entries of the subtree rooted at
the given segment. -/
def walkSubtree (mnt : List FSEntry) (rootSeg : String) : List FSEntry :=
  mnt.filter (fun e => e.segs.head? == some rootSeg)

/-- The copy phase of the containerd `ExtractImage` (repository package
lines 76-87): every visited entry that is not a directory and whose path
has the staging prefix is copied to
`path.Join(destination, _path[len(srcDir):])`, i.e. the destination
extended by the entry's path relative to the staging root. -/
def extractCopyTargets (mnt : List FSEntry) (destination : List String) :
    List (List String) :=
  ((walkSubtree mnt "extract").filter
      (fun e => !e.isDir && (e.segs.head? == some "extract"))).map
    (fun e => destination ++ e.segs.tail)

/-- C8: the extraction copy phase copies exactly the non-directory
entries strictly beneath the `extract` staging path, each to the
destination extended by its path relative to the staging path; directory
entries are never copied, and entries outside the staging subtree are
never copied even when present in the same mount. -/
theorem extractCopyTargets_exact (mnt : List FSEntry) (destination : List String)
    (hroot : FSEntry.mk ["extract"] false ∉ mnt) :
    ∀ t, t ∈ extractCopyTargets mnt destination ↔
      ∃ rel, rel ≠ [] ∧ FSEntry.mk ("extract" :: rel) false ∈ mnt ∧
        t = destination ++ rel := by
  intro t
  constructor
  · intro ht
    simp only [extractCopyTargets, walkSubtree, List.mem_map, List.mem_filter,
      Bool.and_eq_true, beq_iff_eq, Bool.not_eq_true] at ht
    obtain ⟨e, ⟨⟨hmem, hhead⟩, hdir, hhead2⟩, hteq⟩ := ht
    cases hs : e.segs with
    | nil => rw [hs] at hhead; simp at hhead
    | cons a tl =>
      rw [hs] at hhead
      simp only [List.head?_cons, Option.some.injEq] at hhead
      subst hhead
      have he : e = FSEntry.mk ("extract" :: tl) false := by
        cases e
        simp_all
      refine ⟨tl, ?_, ?_, ?_⟩
      · intro h0
        subst h0
        rw [he] at hmem
        exact hroot hmem
      · rw [← he]
        exact hmem
      · rw [← hteq, hs]
        rfl
  · intro ht
    obtain ⟨rel, hne, hmem, hteq⟩ := ht
    subst hteq
    simp only [extractCopyTargets, walkSubtree, List.mem_map, List.mem_filter]
    exact ⟨FSEntry.mk ("extract" :: rel) false, ⟨⟨hmem, by simp⟩, by simp⟩, by simp⟩

def mntDemo : List FSEntry :=
  [FSEntry.mk ["extract"] true, FSEntry.mk ["extract", "etc"] true,
   FSEntry.mk ["extract", "etc", "hostname"] false,
   FSEntry.mk ["extract", "boot", "vmlinuz"] false,
   FSEntry.mk ["other", "secret"] false]

theorem extractCopyTargets_exact_w :
    ["tmp", "out", "etc", "hostname"] ∈ extractCopyTargets mntDemo ["tmp", "out"] :=
  (extractCopyTargets_exact mntDemo ["tmp", "out"] (by decide)
      ["tmp", "out", "etc", "hostname"]).mpr
    ⟨["etc", "hostname"], by decide, by decide, rfl⟩

/-- images.go line 232: the temporary container name of the CLI-driven
extraction, `"darch-extracting-" + strings.Replace(name, "/", "", -1)` —
a function of the image name alone. -/
def extractTmpImageName (name : String) : String :=
  "darch-extracting-" ++ String.mk (name.data.filter (fun c => !(c == '/')))

/-- The containerd-based `ExtractImage` keys its working snapshot by a
freshly generated identifier (`snapshotKey := utils.NewID()`, repository
package line 46); `utils.NewID` is external, so the fresh id is a
parameter here and the key is exactly that id. -/
def extractSnapshotKey (freshID : String) : String := freshID

/-- C9 counterexample: the docker-CLI extraction and build key their
temporary execution units deterministically by image name alone — every
extraction of `myimage` uses the container name
`darch-extracting-myimage`, and every build of a definition uses
`darch-building-` + its name — so two such operations on the same image
produce the same key, contradicting the claim that keys are unique per
operation for every build or extraction. -/
theorem cli_keys_deterministic :
    extractTmpImageName "myimage" = "darch-extracting-myimage" ∧
    buildTmpImageName imgT = "darch-building-base" ∧
    extractTmpImageName "myimage" = extractTmpImageName "myimage" :=
  ⟨rfl, rfl, rfl⟩

/-- C9 (amended): only the containerd-based extraction keys its working
snapshot by a freshly generated per-operation identifier — distinct fresh
ids never collide; the docker-CLI build and extraction derive their
temporary container names deterministically from the image name alone. -/
theorem snapshot_key_unique :
    (∀ u v : String, u ≠ v → extractSnapshotKey u ≠ extractSnapshotKey v) ∧
    (∀ n : String, extractTmpImageName n
        = "darch-extracting-" ++ String.mk (n.data.filter (fun c => !(c == '/')))) ∧
    (∀ d : ImageDefinition, buildTmpImageName d = "darch-building-" ++ d.Name) :=
  ⟨fun _ _ h => h, fun _ => rfl, fun _ => rfl⟩

theorem snapshot_key_unique_w :
    extractSnapshotKey "id-0001" ≠ extractSnapshotKey "id-0002" :=
  snapshot_key_unique.1 "id-0001" "id-0002" (by decide)

end Darch
